import Mathlib

/-!
# Verification of rust-cache (fifo.rs and lib.rs)

Shallow embedding of the two cache structures of the repository:

* `Queue` (src/fifo.rs): a map plus an insertion-order deque, with a FIFO/LIFO
  `kind` tag;
* `RRCache` (src/lib.rs): a map from keys to records carrying a value and an
  index into an unordered key vector, with random-replacement eviction.

Rust `HashMap<K, V>` is embedded as an association list `List (K × V)` whose
keys stay pairwise distinct in every state the program constructs (inserts of
a fresh key append; inserts of a present key replace in place; removal drops
the binding).  Because keys are unique, replace-every-binding and
remove-every-binding coincide with replace-the-binding and remove-the-binding,
so the recursive functions below traverse the whole list.

A crucial detail of both `set` implementations is the guard
`entry_map.capacity() == entry_map.len()`.  `HashMap::with_capacity(c)` does
not allocate capacity exactly `c`: hashbrown rounds the bucket count up, and
`capacity()` reports `0` for `c = 0`, `3` for `1 ≤ c ≤ 3`, `7` for
`4 ≤ c ≤ 7`, and `buckets * 7 / 8` with `buckets = nextPowerOfTwo (c * 8 / 7)`
for `c ≥ 8`.  `hashCapacity` embeds that computation; the capacity of the map
never changes afterwards because both `set` functions keep `len ≤ capacity`
at every insertion, so it is carried as a constant field of the state.
-/

set_option autoImplicit false

variable {K V : Type} [DecidableEq K]

/-- Lookup in an association list: embeds `HashMap::get` / `get_key_value`
(the value component). -/
def assocFind : List (K × V) → K → Option V
  | [], _ => none
  | (a, b) :: m, k => if a = k then some b else assocFind m k

/-- Replace the binding of `k` by `v`, keeping its position: embeds the
update performed by `HashMap::insert` when the key is already present.
(Traverses the whole list; on the unique-key lists the program builds this
touches exactly one binding.) -/
def assocReplace : List (K × V) → K → V → List (K × V)
  | [], _, _ => []
  | (a, b) :: m, k, v => if a = k then (k, v) :: assocReplace m k v else (a, b) :: assocReplace m k v

/-- Remove the binding of `k`: embeds `HashMap::remove` / `remove_entry`.
(Traverses the whole list; on unique-key lists exactly one binding goes.) -/
def assocRemove : List (K × V) → K → List (K × V)
  | [], _ => []
  | (a, b) :: m, k => if a = k then assocRemove m k else (a, b) :: assocRemove m k

/-- Embeds `HashMap::insert` as a whole: update in place when the key is
present, append the new binding otherwise. -/
def assocInsert (m : List (K × V)) (k : K) (v : V) : List (K × V) :=
  if (assocFind m k).isSome then assocReplace m k v else m ++ [(k, v)]

/-- Remove a key from a key list (helper for stating facts about
`assocRemove` images). -/
def keyErase : List K → K → List K
  | [], _ => []
  | a :: t, k => if a = k then keyErase t k else a :: keyErase t k

/-- The value reported by `HashMap::with_capacity(c).capacity()` (hashbrown:
`capacity_to_buckets` followed by `bucket_mask_to_capacity`): `0` when
`c = 0`, `3` when `c < 4`, `7` when `c < 8`, and `buckets * 7 / 8` with
`buckets = nextPowerOfTwo (c * 8 / 7)` otherwise.  Note this is at least `c`
and in general strictly larger (`hashCapacity 2 = 3`). -/
def hashCapacity (c : Nat) : Nat :=
  if c = 0 then 0
  else if c < 4 then 3
  else if c < 8 then 7
  else Nat.nextPowerOfTwo (c * 8 / 7) / 8 * 7

/-- The eviction-policy tag of src/fifo.rs (`pub enum Kind`). -/
inductive Kind where
  | FIFO
  | LIFO
deriving DecidableEq

/-- State of `Queue<K, V>` (src/fifo.rs lines 9-13): the `entry_map` hash
map, the `keys` deque, the `kind` tag, plus the constant value of
`entry_map.capacity()`. -/
structure QueueS (K V : Type) where
  entry_map : List (K × V)
  keys : List K
  kind : Kind
  cap : Nat
deriving DecidableEq

/-- `Queue::new(capacity, kind)` (src/fifo.rs lines 24-30).  As written the
source line `kind: Kind` does not name the parameter (it names the enum type
and does not compile); the evident intent, storing the `kind` argument, is
embedded.  The map is `HashMap::with_capacity(capacity)`, whose reported
capacity is `hashCapacity capacity`. -/
def queueNew (capacity : Nat) (kind : Kind) : QueueS K V :=
  { entry_map := [], keys := [], kind := kind, cap := hashCapacity capacity }

/-- The insertion phase of `Queue::set` (src/fifo.rs lines 45-48):
`entry_map.insert(key, value)`, pushing `key` to the back of `keys` exactly
when the map had no binding for it. -/
def insertPhase (q : QueueS K V) (key : K) (v : V) : QueueS K V :=
  if (assocFind q.entry_map key).isSome then
    { q with entry_map := assocReplace q.entry_map key v }
  else
    { q with entry_map := q.entry_map ++ [(key, v)], keys := q.keys ++ [key] }

/-- `Queue::set` (src/fifo.rs lines 33-50).  When `entry_map.capacity() ==
entry_map.len()` it pops the FRONT of `keys` (the `kind` field is never
consulted) and removes that key from the map, returning `false` if the deque
is empty or if the popped key has no binding (in the latter case the deque
has already lost its front).  Then the insertion phase runs and `true` is
returned. -/
def queueSet (q : QueueS K V) (key : K) (v : V) : Bool × QueueS K V :=
  if q.entry_map.length = q.cap then
    match q.keys with
    | [] => (false, q)
    | front :: rest =>
      if (assocFind q.entry_map front).isSome then
        (true, insertPhase { q with entry_map := assocRemove q.entry_map front, keys := rest } key v)
      else
        (false, { q with keys := rest })
  else
    (true, insertPhase q key v)

/-- `Queue::get` (src/fifo.rs lines 53-58): a lookup in `entry_map`, taking
`&self` and performing no mutation. -/
def queueGet (q : QueueS K V) (key : K) : Option V :=
  assocFind q.entry_map key

/-- Run a sequence of `set` calls on a freshly constructed queue. -/
def queueRunSets (capacity : Nat) (kind : Kind) (sets : List (K × V)) : QueueS K V :=
  sets.foldl (fun q p => (queueSet q p.1 p.2).2) (queueNew capacity kind)

/-- The record type `Entry<K, V>` of src/lib.rs (lines 7-10): a one-binding
inner hash map from the key to the value, plus the key's current index into
the key vector. -/
structure REntry (K V : Type) where
  map : List (K × V)
  idx : Nat
deriving DecidableEq

/-- State of `RRCache<K, V>` (src/lib.rs lines 40-43): the `entry_map` hash
map, the `keys` vector, plus the constant value of `entry_map.capacity()`. -/
structure RRS (K V : Type) where
  entry_map : List (K × REntry K V)
  keys : List K
  cap : Nat
deriving DecidableEq

/-- `RRCache::new(capacity)` (src/lib.rs lines 62-67): the map is
`HashMap::with_capacity(capacity)` (reported capacity `hashCapacity
capacity`), the key vector is `Vec::new()`. -/
def rrNew (capacity : Nat) : RRS K V :=
  { entry_map := [], keys := [], cap := hashCapacity capacity }

/-- Embeds `self.keys.choose(&mut rng)` (src/lib.rs line 77): `None` on an
empty slice, otherwise a uniformly random element.  The random draw is made
explicit as the index `pick % keys.length` determined by the `pick`
parameter; a uniformly distributed `pick` residue gives every position equal
probability, which is exactly the distribution of `SliceRandom::choose`. -/
def rrChoose (keys : List K) (pick : Nat) : Option K :=
  keys[pick % keys.length]?

/-- Embeds `Vec::swap(i, j)`.  In every state this program reaches both
indices are in bounds (stored indices are below the length whenever the
eviction path runs), so the out-of-bounds fallback never fires there. -/
def listSwap {α : Type} (l : List α) (i j : Nat) : List α :=
  match l[i]?, l[j]? with
  | some a, some b => (l.set i b).set j a
  | _, _ => l

/-- The push phase of `RRCache::set` (src/lib.rs lines 91-95): push the key
onto `keys`, build a fresh `Entry` holding the single binding
`key -> value` and the index `keys.len() - 1`, and insert it into
`entry_map`. -/
def rrPushNew (c : RRS K V) (key : K) (v : V) : Bool × RRS K V :=
  let keys := c.keys ++ [key]
  (true, { c with keys := keys,
                  entry_map := assocInsert c.entry_map key ⟨[(key, v)], keys.length - 1⟩ })

/-- `RRCache::set` (src/lib.rs lines 70-97).  If the key is present, its
entry's inner map is updated in place (the stored index is untouched).
Otherwise, when `entry_map.len() == entry_map.capacity()`, a random victim is
drawn from `keys` (`false` when the vector is empty), its entry is looked up
(`false` when missing), the victim's STORED slot is swapped with the last
slot, the last element is popped, and the victim leaves the map — note the
source never updates the stored index of the key that was swapped into the
victim's slot.  Finally the push phase runs. -/
def rrSet (c : RRS K V) (key : K) (v : V) (pick : Nat) : Bool × RRS K V :=
  match assocFind c.entry_map key with
  | some entry =>
    (true, { c with entry_map :=
              assocInsert c.entry_map key { entry with map := assocInsert entry.map key v } })
  | none =>
    if c.entry_map.length = c.cap then
      match rrChoose c.keys pick with
      | none => (false, c)
      | some rand_key =>
        match assocFind c.entry_map rand_key with
        | none => (false, c)
        | some rand_entry =>
          rrPushNew { c with
                      keys := (listSwap c.keys rand_entry.idx (c.keys.length - 1)).dropLast,
                      entry_map := assocRemove c.entry_map rand_key } key v
    else
      rrPushNew c key v

/-- `RRCache::get` (src/lib.rs lines 100-106): two lookups (outer map, then
the entry's inner map); the body performs no mutation. -/
def rrGet (c : RRS K V) (key : K) : Option V :=
  match assocFind c.entry_map key with
  | none => none
  | some entry => assocFind entry.map key

/-- Run a sequence of `set` calls (each with its random draw `pick`) on a
freshly constructed RR cache. -/
def rrRunSets (capacity : Nat) (sets : List (K × V × Nat)) : RRS K V :=
  sets.foldl (fun c t => (rrSet c t.1 t.2.1 t.2.2).2) (rrNew capacity)

/-- Decidable check of the RR index invariant: every resident key's stored
index locates that key in the `keys` vector. -/
def rrIdxOk (c : RRS K V) : Bool :=
  c.entry_map.all (fun p => match c.keys[p.2.idx]? with
    | some a => decide (a = p.1)
    | none => false)

/-- Invariant of the queue state maintained by `set`: the map's key list IS
the deque (same keys, same order — new keys are appended to both, the front
is removed from both, updates touch neither), the deque has no duplicates,
and its length is bounded by the allocated capacity. -/
def QInv (q : QueueS K V) : Prop :=
  q.entry_map.map Prod.fst = q.keys ∧ q.keys.Nodup ∧ q.keys.length ≤ q.cap

/-- A public-API call on the queue. -/
inductive QOp (K V : Type) where
  | set (k : K) (v : V)
  | get (k : K)

/-- Whether a queue call is a `set`. -/
def QOp.isSet {K V : Type} : QOp K V → Bool
  | .set _ _ => true
  | .get _ => false

/-- State transition of one queue call.  `Queue::get` takes `&self` and only
reads `entry_map`, so its transition is the identity on the state. -/
def queueStepState (q : QueueS K V) : QOp K V → QueueS K V
  | .set k v => (queueSet q k v).2
  | .get _ => q

/-- Run a sequence of queue calls, tracking the state. -/
def queueRunOps (q : QueueS K V) (ops : List (QOp K V)) : QueueS K V :=
  ops.foldl queueStepState q

/-- A public-API call on the RR cache (a `set` carries its random draw). -/
inductive ROp (K V : Type) where
  | set (k : K) (v : V) (pick : Nat)
  | get (k : K)

/-- Whether an RR call is a `set`. -/
def ROp.isSet {K V : Type} : ROp K V → Bool
  | .set _ _ _ => true
  | .get _ => false

/-- State transition of one RR call.  `RRCache::get` takes `&mut self` but
its body only performs lookups, so its transition is the identity. -/
def rrStepState (c : RRS K V) : ROp K V → RRS K V
  | .set k v pick => (rrSet c k v pick).2
  | .get _ => c

/-- Run a sequence of RR calls, tracking the state. -/
def rrRunOps (c : RRS K V) (ops : List (ROp K V)) : RRS K V :=
  ops.foldl rrStepState c

/-- The kind-independent part of a queue state: entry map, deque, capacity. -/
def qcore (q : QueueS K V) : List (K × V) × List K × Nat :=
  (q.entry_map, q.keys, q.cap)

/-- One queue call together with its visible result (`Bool` for `set`,
`Option V` for `get`). -/
def queueStepOut (q : QueueS K V) : QOp K V → (Bool ⊕ Option V) × QueueS K V
  | .set k v => (Sum.inl (queueSet q k v).1, (queueSet q k v).2)
  | .get k => (Sum.inr (queueGet q k), q)

/-- Run a sequence of queue calls, collecting every visible result. -/
def queueRunTrace (q : QueueS K V) : List (QOp K V) → List (Bool ⊕ Option V) × QueueS K V
  | [] => ([], q)
  | op :: ops =>
    let r := queueStepOut q op
    let t := queueRunTrace r.2 ops
    (r.1 :: t.1, t.2)

/-! ## Association-list lemmas -/

theorem assocFind_assocReplace_self {m : List (K × V)} {k : K} (v : V)
    (h : (assocFind m k).isSome) : assocFind (assocReplace m k v) k = some v := by
  induction m with
  | nil => simp [assocFind] at h
  | cons p m ih =>
    obtain ⟨a, b⟩ := p
    by_cases hak : a = k
    · simp [assocFind, assocReplace, hak]
    · simp [assocFind, assocReplace, hak] at h ⊢
      exact ih h

theorem assocFind_assocReplace_ne {m : List (K × V)} {k a : K} (v : V) (h : a ≠ k) :
    assocFind (assocReplace m k v) a = assocFind m a := by
  induction m with
  | nil => rfl
  | cons p m ih =>
    obtain ⟨x, y⟩ := p
    by_cases hxk : x = k
    · subst hxk
      simp [assocFind, assocReplace, Ne.symm h, ih]
    · simp [assocFind, assocReplace, hxk, ih]

theorem assocFind_assocRemove_self (m : List (K × V)) (k : K) :
    assocFind (assocRemove m k) k = none := by
  induction m with
  | nil => rfl
  | cons p m ih =>
    obtain ⟨x, y⟩ := p
    by_cases hxk : x = k
    · simp [assocRemove, hxk, ih]
    · simp [assocRemove, assocFind, hxk, ih]

theorem assocFind_assocRemove_ne {m : List (K × V)} {k a : K} (h : a ≠ k) :
    assocFind (assocRemove m k) a = assocFind m a := by
  induction m with
  | nil => rfl
  | cons p m ih =>
    obtain ⟨x, y⟩ := p
    by_cases hxk : x = k
    · subst hxk
      simp [assocRemove, assocFind, Ne.symm h, ih]
    · simp [assocRemove, assocFind, hxk, ih]

theorem assocFind_none_iff {m : List (K × V)} {k : K} :
    assocFind m k = none ↔ k ∉ m.map Prod.fst := by
  induction m with
  | nil => simp [assocFind]
  | cons p m ih =>
    obtain ⟨x, y⟩ := p
    by_cases hxk : x = k
    · simp [assocFind, hxk]
    · simp [assocFind, hxk, ih, Ne.symm hxk]

theorem assocFind_isSome_iff {m : List (K × V)} {k : K} :
    (assocFind m k).isSome ↔ k ∈ m.map Prod.fst := by
  rw [Option.isSome_iff_ne_none, ne_eq, assocFind_none_iff, not_not]

theorem assocFind_append_single {m : List (K × V)} {k : K} (v : V)
    (h : assocFind m k = none) : assocFind (m ++ [(k, v)]) k = some v := by
  induction m with
  | nil => simp [assocFind]
  | cons p m ih =>
    obtain ⟨x, y⟩ := p
    by_cases hxk : x = k
    · simp [assocFind, hxk] at h
    · simp [assocFind, hxk] at h ⊢
      exact ih h

theorem assocFind_assocInsert_self (m : List (K × V)) (k : K) (v : V) :
    assocFind (assocInsert m k v) k = some v := by
  unfold assocInsert
  by_cases h : (assocFind m k).isSome
  · simp [h, assocFind_assocReplace_self]
  · rw [if_neg h]
    exact assocFind_append_single v (Option.not_isSome_iff_eq_none.mp h)

theorem mapFst_assocReplace (m : List (K × V)) (k : K) (v : V) :
    (assocReplace m k v).map Prod.fst = m.map Prod.fst := by
  induction m with
  | nil => rfl
  | cons p m ih =>
    obtain ⟨x, y⟩ := p
    by_cases hxk : x = k
    · subst hxk
      simp [assocReplace, ih]
    · simp [assocReplace, hxk, ih]

theorem mapFst_assocRemove (m : List (K × V)) (k : K) :
    (assocRemove m k).map Prod.fst = keyErase (m.map Prod.fst) k := by
  induction m with
  | nil => rfl
  | cons p m ih =>
    obtain ⟨x, y⟩ := p
    by_cases hxk : x = k
    · simp [assocRemove, keyErase, hxk, ih]
    · simp [assocRemove, keyErase, hxk, ih]

theorem keyErase_of_not_mem {l : List K} {k : K} (h : k ∉ l) : keyErase l k = l := by
  induction l with
  | nil => rfl
  | cons a t ih =>
    simp only [List.mem_cons, not_or] at h
    simp [keyErase, Ne.symm h.1, ih h.2]

/-! ## Queue invariant -/

theorem insertPhase_inv {q : QueueS K V} {key : K} {v : V}
    (hfst : q.entry_map.map Prod.fst = q.keys) (hnd : q.keys.Nodup)
    (hlt : q.keys.length < q.cap) : QInv (insertPhase q key v) := by
  unfold insertPhase QInv
  by_cases h : (assocFind q.entry_map key).isSome
  · simp only [h, if_true, ite_true]
    exact ⟨by simpa [mapFst_assocReplace] using hfst, hnd, Nat.le_of_lt hlt⟩
  · have hmem : key ∉ q.keys := by
      rw [← hfst]
      exact assocFind_none_iff.mp (Option.not_isSome_iff_eq_none.mp h)
    simp only [h, if_false, ite_false]
    refine ⟨by simp [hfst], ?_, by simp; omega⟩
    simp [List.nodup_append, hnd, hmem]

theorem queueSet_inv {q : QueueS K V} {key : K} {v : V}
    (h : QInv q) : QInv (queueSet q key v).2 := by
  obtain ⟨hfst, hnd, hle⟩ := h
  have hlen_eq : q.entry_map.length = q.keys.length := by
    rw [← hfst, List.length_map]
  unfold queueSet
  by_cases hlen : q.entry_map.length = q.cap
  · rcases hk : q.keys with _ | ⟨front, rest⟩
    · simp only [hlen, if_true, ite_true, hk]
      exact ⟨hfst, hnd, hle⟩
    · have hfstk : q.entry_map.map Prod.fst = front :: rest := by rw [hfst, hk]
      have hfr : (assocFind q.entry_map front).isSome := by
        rw [assocFind_isSome_iff, hfstk]
        exact List.mem_cons_self front rest
      have hndk : front ∉ rest ∧ rest.Nodup := by
        rw [hk] at hnd
        exact List.nodup_cons.mp hnd
      simp only [hlen, if_true, ite_true, hk, hfr]
      apply insertPhase_inv
      · show (assocRemove q.entry_map front).map Prod.fst = rest
        rw [mapFst_assocRemove, hfstk]
        simp only [keyErase, if_pos rfl]
        exact keyErase_of_not_mem hndk.1
      · exact hndk.2
      · show rest.length < q.cap
        rw [hk] at hlen_eq
        simp only [List.length_cons] at hlen_eq
        omega
  · simp only [hlen, if_false, ite_false]
    apply insertPhase_inv hfst hnd
    omega

theorem queueSet_cap (q : QueueS K V) (key : K) (v : V) :
    (queueSet q key v).2.cap = q.cap := by
  unfold queueSet insertPhase
  split
  · split
    · rfl
    · split
      · split <;> rfl
      · rfl
  · split <;> rfl

theorem queueRunSets_inv (capacity : Nat) (kind : Kind) (sets : List (K × V)) :
    QInv (queueRunSets capacity kind sets : QueueS K V) ∧
    (queueRunSets capacity kind sets : QueueS K V).cap = hashCapacity capacity := by
  have H : ∀ (l : List (K × V)) (q : QueueS K V), QInv q →
      QInv (l.foldl (fun q p => (queueSet q p.1 p.2).2) q) ∧
      (l.foldl (fun q p => (queueSet q p.1 p.2).2) q).cap = q.cap := by
    intro l
    induction l with
    | nil => exact fun q h => ⟨h, rfl⟩
    | cons p t ih =>
      intro q h
      simp only [List.foldl_cons]
      obtain ⟨h1, h2⟩ := ih _ (queueSet_inv h)
      exact ⟨h1, h2.trans (queueSet_cap q p.1 p.2)⟩
  have init : QInv (queueNew capacity kind : QueueS K V) :=
    ⟨rfl, List.nodup_nil, Nat.zero_le _⟩
  exact H sets _ init

/-! ## Kind-independence of the queue, and modularity of the RR random draw -/

theorem queueGet_core {q1 q2 : QueueS K V} (k : K) (h : qcore q1 = qcore q2) :
    queueGet q1 k = queueGet q2 k := by
  cases q1 with
  | mk em1 ks1 kd1 cp1 =>
    cases q2 with
    | mk em2 ks2 kd2 cp2 =>
      simp only [qcore, Prod.mk.injEq] at h
      obtain ⟨h1, h2, h3⟩ := h
      subst h1
      rfl

theorem queueSet_core {q1 q2 : QueueS K V} (key : K) (v : V) (h : qcore q1 = qcore q2) :
    (queueSet q1 key v).1 = (queueSet q2 key v).1 ∧
    qcore (queueSet q1 key v).2 = qcore (queueSet q2 key v).2 := by
  cases q1 with
  | mk em1 ks1 kd1 cp1 =>
    cases q2 with
    | mk em2 ks2 kd2 cp2 =>
      simp only [qcore, Prod.mk.injEq] at h
      obtain ⟨h1, h2, h3⟩ := h
      subst h1
      subst h2
      subst h3
      constructor
      · simp only [queueSet, insertPhase]
        by_cases hl : em1.length = cp1 <;> simp only [hl, if_true, if_false, ite_true, ite_false]
        cases ks1 with
        | nil => rfl
        | cons front rest =>
          by_cases hf : (assocFind em1 front).isSome <;> simp [hf]
      · simp only [queueSet, insertPhase]
        by_cases hl : em1.length = cp1 <;> simp only [hl, if_true, if_false, ite_true, ite_false]
        · cases ks1 with
          | nil => rfl
          | cons front rest =>
            by_cases hf : (assocFind em1 front).isSome <;> simp only [hf, if_true, if_false, ite_true, ite_false]
            · by_cases hk : (assocFind (assocRemove em1 front) key).isSome <;>
                simp [hk, qcore]
            · rfl
        · by_cases hk : (assocFind em1 key).isSome <;> simp [hk, qcore]

theorem queueRunTrace_core (ops : List (QOp K V)) :
    ∀ (q1 q2 : QueueS K V), qcore q1 = qcore q2 →
      (queueRunTrace q1 ops).1 = (queueRunTrace q2 ops).1 ∧
      qcore (queueRunTrace q1 ops).2 = qcore (queueRunTrace q2 ops).2 := by
  induction ops with
  | nil => exact fun q1 q2 h => ⟨rfl, h⟩
  | cons op t ih =>
    intro q1 q2 h
    cases op with
    | get k =>
      obtain ⟨ho, hc⟩ := ih q1 q2 h
      simp only [queueRunTrace, queueStepOut]
      exact ⟨by rw [queueGet_core k h, ho], hc⟩
    | set k v =>
      obtain ⟨hb, hc⟩ := queueSet_core k v h
      obtain ⟨ho, hc2⟩ := ih _ _ hc
      simp only [queueRunTrace, queueStepOut]
      exact ⟨by rw [hb, ho], hc2⟩

omit [DecidableEq K] in
theorem rrChoose_mod (keys : List K) (pick : Nat) :
    rrChoose keys pick = rrChoose keys (pick % keys.length) := by
  unfold rrChoose
  rw [Nat.mod_mod_of_dvd pick (dvd_refl keys.length)]

theorem rrSet_mod (c : RRS K V) (key : K) (v : V) (pick : Nat) :
    rrSet c key v pick = rrSet c key v (pick % c.keys.length) := by
  unfold rrSet
  rw [rrChoose_mod]

/-! ## Claim theorems -/

/-- C1: the claimed bound "number of resident entries ≤ construction
capacity C after every set" fails on the code for both structures: with
construction capacity 2 the guard compares the length against the allocated
capacity `hashCapacity 2 = 3`, so three inserted keys are all retained
(3 > 2) in the Queue and in the RR cache alike. -/
theorem c1_capacity_bound_exceeded :
    hashCapacity 2 = 3 ∧
    (queueRunSets 2 Kind.FIFO [(1, "a"), (2, "b"), (3, "c")] : QueueS Nat String).entry_map.length = 3 ∧
    (rrRunSets 2 [(1, "a", 0), (2, "b", 0), (3, "c", 0)] : RRS Nat String).entry_map.length = 3 := by
  decide

/-- C2: the LIFO example of the spec fails on the code.  With construction
capacity 2 no eviction happens on the third set (allocated capacity is 3), so
get(2) is some "b" rather than absent; and when eviction does fire (exact
allocated capacity 3, fourth insert) the kind field is never consulted and
the FRONT key 1 is evicted, not the back key 3 as LIFO requires. -/
theorem c2_lifo_evicts_front_not_back :
    queueGet (queueRunSets 2 Kind.LIFO [(1, "a"), (2, "b"), (3, "c")] : QueueS Nat String) 2 = some "b" ∧
    queueGet (queueRunSets 2 Kind.LIFO [(1, "a"), (2, "b"), (3, "c")] : QueueS Nat String) 1 = some "a" ∧
    queueGet (queueRunSets 2 Kind.LIFO [(1, "a"), (2, "b"), (3, "c")] : QueueS Nat String) 3 = some "c" ∧
    queueGet (queueRunSets 3 Kind.LIFO [(1, "a"), (2, "b"), (3, "c"), (4, "d")] : QueueS Nat String) 1 = none ∧
    queueGet (queueRunSets 3 Kind.LIFO [(1, "a"), (2, "b"), (3, "c"), (4, "d")] : QueueS Nat String) 3 = some "c" ∧
    queueGet (queueRunSets 3 Kind.LIFO [(1, "a"), (2, "b"), (3, "c"), (4, "d")] : QueueS Nat String) 4 = some "d" := by
  decide

/-- C3: the RR index invariant keys[entries[K].idx] == K fails right after
the first eviction whose random victim is not in the last slot: with
capacity 3, keys 1,2,3 inserted and key 4 inserted with victim key 1
(slot 0), the swap moves key 3 to slot 0 but its stored index still says 2,
where key 4 now lives.  The invariant holds before that eviction, so it is
exactly the missing index fix-up in the swap-and-pop that breaks it. -/
theorem c3_index_invariant_corrupted :
    rrIdxOk (rrRunSets 3 [(1, "a", 0), (2, "b", 0), (3, "c", 0)] : RRS Nat String) = true ∧
    rrIdxOk (rrRunSets 3 [(1, "a", 0), (2, "b", 0), (3, "c", 0), (4, "d", 0)] : RRS Nat String) = false ∧
    (rrRunSets 3 [(1, "a", 0), (2, "b", 0), (3, "c", 0), (4, "d", 0)] : RRS Nat String).keys = [3, 2, 4] := by
  decide

/-- C4 counterexample: for the Queue the claim fails.  With exact allocated
capacity 3 and resident keys 1,2,3, calling set on the already-resident key 2
evicts key 1 (the capacity guard runs before the presence check), so the
resident key set changes. -/
theorem c4_update_at_capacity_evicts :
    (assocFind (queueRunSets 3 Kind.FIFO [(1, "a"), (2, "b"), (3, "c")] : QueueS Nat String).entry_map 2).isSome = true ∧
    (queueRunSets 3 Kind.FIFO [(1, "a"), (2, "b"), (3, "c")] : QueueS Nat String).entry_map.length = 3 ∧
    hashCapacity 3 = 3 ∧
    queueGet (queueRunSets 3 Kind.FIFO [(1, "a"), (2, "b"), (3, "c")] : QueueS Nat String) 1 = some "a" ∧
    queueGet (queueSet (queueRunSets 3 Kind.FIFO [(1, "a"), (2, "b"), (3, "c")] : QueueS Nat String) 2 "x").2 1 = none := by
  decide

/-- C4 amended: for the RR cache, set on an already-resident key returns
true, updates the value and leaves the resident key set and the key vector
unchanged (the presence check precedes the capacity guard).  For the Queue
at capacity, set on a resident key other than the front key updates the
value but ALSO evicts the front-of-order entry. -/
theorem c4_update_behaviour
    : (∀ (c : RRS K V) (key : K) (v : V) (pick : Nat),
        (assocFind c.entry_map key).isSome = true →
        (rrSet c key v pick).1 = true ∧
        (rrSet c key v pick).2.entry_map.map Prod.fst = c.entry_map.map Prod.fst ∧
        (rrSet c key v pick).2.keys = c.keys ∧
        rrGet (rrSet c key v pick).2 key = some v) ∧
      (∀ (q : QueueS K V) (key front : K) (rest : List K) (v : V),
        q.entry_map.length = q.cap →
        q.keys = front :: rest →
        (assocFind q.entry_map front).isSome = true →
        (assocFind q.entry_map key).isSome = true →
        key ≠ front →
        (queueSet q key v).1 = true ∧
        queueGet (queueSet q key v).2 key = some v ∧
        queueGet (queueSet q key v).2 front = none) := by
  constructor
  · intro c key v pick h
    obtain ⟨e, he⟩ := Option.isSome_iff_exists.mp h
    unfold rrSet
    rw [he]
    refine ⟨rfl, ?_, rfl, ?_⟩
    · show (assocInsert c.entry_map key _).map Prod.fst = c.entry_map.map Prod.fst
      unfold assocInsert
      rw [if_pos h]
      exact mapFst_assocReplace _ _ _
    · show rrGet { c with entry_map := assocInsert c.entry_map key _ } key = some v
      unfold rrGet assocInsert
      rw [if_pos h]
      rw [show (assocFind (assocReplace c.entry_map key _) key) = some _ from
            assocFind_assocReplace_self _ h]
      exact assocFind_assocInsert_self _ _ _
  · intro q key front rest v hlen hkeys hfront hkey hne
    have hkey2 : (assocFind (assocRemove q.entry_map front) key).isSome = true := by
      rw [assocFind_assocRemove_ne hne]
      exact hkey
    have hq : queueSet q key v =
        (true, insertPhase { q with entry_map := assocRemove q.entry_map front, keys := rest } key v) := by
      unfold queueSet
      simp [hlen, hkeys, hfront]
    have hip : insertPhase { q with entry_map := assocRemove q.entry_map front, keys := rest } key v =
        { q with entry_map := assocReplace (assocRemove q.entry_map front) key v, keys := rest } := by
      unfold insertPhase
      rw [if_pos hkey2]
    rw [hq, hip]
    refine ⟨rfl, ?_, ?_⟩
    · show assocFind (assocReplace (assocRemove q.entry_map front) key v) key = some v
      exact assocFind_assocReplace_self v hkey2
    · show assocFind (assocReplace (assocRemove q.entry_map front) key v) front = none
      rw [assocFind_assocReplace_ne v (Ne.symm hne)]
      exact assocFind_assocRemove_self _ _

/-- C4 witness: the RR part applied to the cache holding keys 1,2 (update
key 1), and the Queue part applied to the full capacity-3 queue holding
keys 1,2,3 (update key 2, front key 1). -/
theorem c4_update_behaviour_witness :
    ((rrSet (rrRunSets 3 [(1, "a", 0), (2, "b", 0)] : RRS Nat String) 1 "z" 5).1 = true ∧
     (rrSet (rrRunSets 3 [(1, "a", 0), (2, "b", 0)] : RRS Nat String) 1 "z" 5).2.entry_map.map Prod.fst =
       (rrRunSets 3 [(1, "a", 0), (2, "b", 0)] : RRS Nat String).entry_map.map Prod.fst ∧
     (rrSet (rrRunSets 3 [(1, "a", 0), (2, "b", 0)] : RRS Nat String) 1 "z" 5).2.keys =
       (rrRunSets 3 [(1, "a", 0), (2, "b", 0)] : RRS Nat String).keys ∧
     rrGet (rrSet (rrRunSets 3 [(1, "a", 0), (2, "b", 0)] : RRS Nat String) 1 "z" 5).2 1 = some "z") ∧
    ((queueSet (queueRunSets 3 Kind.FIFO [(1, "a"), (2, "b"), (3, "c")] : QueueS Nat String) 2 "x").1 = true ∧
     queueGet (queueSet (queueRunSets 3 Kind.FIFO [(1, "a"), (2, "b"), (3, "c")] : QueueS Nat String) 2 "x").2 2 = some "x" ∧
     queueGet (queueSet (queueRunSets 3 Kind.FIFO [(1, "a"), (2, "b"), (3, "c")] : QueueS Nat String) 2 "x").2 1 = none) :=
  ⟨c4_update_behaviour.1 _ 1 "z" 5 (by decide),
   c4_update_behaviour.2 _ 2 1 [2, 3] "x" (by decide) (by decide) (by decide) (by decide) (by decide)⟩

/-- C5: the FIFO example of the spec fails on the code: with construction
capacity 2 the allocated capacity is 3, so the third set triggers no
eviction and all of keys 1, 2, 3 stay resident (get(1) is some "a", not
absent).  At an exact allocated capacity (3) the FIFO behaviour does hold:
inserting four keys leaves exactly the last three, key 1 evicted first. -/
theorem c5_fifo_example_diverges :
    queueGet (queueRunSets 2 Kind.FIFO [(1, "a"), (2, "b"), (3, "c")] : QueueS Nat String) 1 = some "a" ∧
    queueGet (queueRunSets 2 Kind.FIFO [(1, "a"), (2, "b"), (3, "c")] : QueueS Nat String) 2 = some "b" ∧
    queueGet (queueRunSets 2 Kind.FIFO [(1, "a"), (2, "b"), (3, "c")] : QueueS Nat String) 3 = some "c" ∧
    queueGet (queueRunSets 3 Kind.FIFO [(1, "a"), (2, "b"), (3, "c"), (4, "d")] : QueueS Nat String) 1 = none ∧
    (queueRunSets 3 Kind.FIFO [(1, "a"), (2, "b"), (3, "c"), (4, "d")] : QueueS Nat String).keys = [2, 3, 4] := by
  decide

/-- C6: the defensive false path of RRCache::set is reachable through the
public API with a positive capacity.  With capacity 3, after inserting keys
1, 2, 3, evicting key 1 (slot 0) for key 4 and then key 3 (via its stale
stored index) for key 5, the keys vector still contains the evicted key 3;
a sixth set whose random draw lands on slot 0 looks up key 3 in the map,
misses, and returns false, leaving the state unchanged. -/
theorem c6_set_false_on_reachable_state :
    hashCapacity 3 = 3 ∧
    (rrSet (rrRunSets 3 [(1, "a", 0), (2, "b", 0), (3, "c", 0), (4, "d", 0), (5, "e", 0)] : RRS Nat String)
      6 "f" 0).1 = false ∧
    (rrSet (rrRunSets 3 [(1, "a", 0), (2, "b", 0), (3, "c", 0), (4, "d", 0), (5, "e", 0)] : RRS Nat String)
      6 "f" 0).2 = rrRunSets 3 [(1, "a", 0), (2, "b", 0), (3, "c", 0), (4, "d", 0), (5, "e", 0)] := by
  decide

/-- C7 counterexample: the claimed bound "both lengths at most the
construction capacity C" fails: with construction capacity 2 three set calls
leave three entries in the map. -/
theorem c7_length_exceeds_construction_capacity :
    ¬ (queueRunSets 2 Kind.FIFO [(10, "x"), (20, "y"), (30, "z")] : QueueS Nat String).entry_map.length ≤ 2 := by
  decide

/-- C7 amended: after any sequence of set calls the order deque and the
entry map contain exactly the same key set and have equal lengths, both at
most the ALLOCATED capacity hashCapacity C — which equals C only when C is
one of the values hashbrown does not round up (0, 3, 7, 14, ...). -/
theorem c7_order_and_map_agree (capacity : Nat) (kind : Kind) (sets : List (K × V)) :
    (∀ a : K, a ∈ (queueRunSets capacity kind sets : QueueS K V).keys ↔
      a ∈ (queueRunSets capacity kind sets : QueueS K V).entry_map.map Prod.fst) ∧
    (queueRunSets capacity kind sets : QueueS K V).keys.length =
      (queueRunSets capacity kind sets : QueueS K V).entry_map.length ∧
    (queueRunSets capacity kind sets : QueueS K V).entry_map.length ≤ hashCapacity capacity := by
  obtain ⟨⟨hfst, hnd, hle⟩, hcap⟩ := queueRunSets_inv (K := K) (V := V) capacity kind sets
  have hlen : (queueRunSets capacity kind sets : QueueS K V).entry_map.length =
      (queueRunSets capacity kind sets : QueueS K V).keys.length := by
    rw [← hfst, List.length_map]
  refine ⟨fun a => by rw [hfst], hlen.symm, ?_⟩
  omega

/-- C8: get is side-effect-free for both structures.  Queue::get takes a
shared reference and RRCache::get only performs lookups, so a get step is
the identity on the state: deleting every get from an operation sequence
yields the same final state, and any number of repeated gets returns the
same value as a single lookup. -/
theorem c8_get_is_pure :
    (∀ (ops : List (QOp K V)) (q : QueueS K V),
      queueRunOps q (ops.filter QOp.isSet) = queueRunOps q ops) ∧
    (∀ (ops : List (ROp K V)) (c : RRS K V),
      rrRunOps c (ops.filter ROp.isSet) = rrRunOps c ops) ∧
    (∀ (q : QueueS K V) (k : K) (n : Nat),
      queueGet (queueRunOps q (List.replicate n (QOp.get k))) k = queueGet q k) ∧
    (∀ (c : RRS K V) (k : K) (n : Nat),
      rrGet (rrRunOps c (List.replicate n (ROp.get k))) k = rrGet c k) := by
  have hq : ∀ (ops : List (QOp K V)) (q : QueueS K V),
      queueRunOps q (ops.filter QOp.isSet) = queueRunOps q ops := by
    intro ops
    induction ops with
    | nil => intro q; rfl
    | cons op t ih =>
      intro q
      cases op with
      | set k v => simp only [queueRunOps, List.filter, QOp.isSet, List.foldl_cons] at ih ⊢; exact ih _
      | get k => simp only [queueRunOps, List.filter, QOp.isSet, List.foldl_cons] at ih ⊢; exact ih q
  have hr : ∀ (ops : List (ROp K V)) (c : RRS K V),
      rrRunOps c (ops.filter ROp.isSet) = rrRunOps c ops := by
    intro ops
    induction ops with
    | nil => intro c; rfl
    | cons op t ih =>
      intro c
      cases op with
      | set k v pick => simp only [rrRunOps, List.filter, ROp.isSet, List.foldl_cons] at ih ⊢; exact ih _
      | get k => simp only [rrRunOps, List.filter, ROp.isSet, List.foldl_cons] at ih ⊢; exact ih c
  have hqrep : ∀ (q : QueueS K V) (k : K) (n : Nat),
      queueRunOps q (List.replicate n (QOp.get k)) = q := by
    intro q k n
    induction n with
    | zero => rfl
    | succ n ih => simpa only [List.replicate_succ, queueRunOps, List.foldl_cons] using ih
  have hrrep : ∀ (c : RRS K V) (k : K) (n : Nat),
      rrRunOps c (List.replicate n (ROp.get k)) = c := by
    intro c k n
    induction n with
    | zero => rfl
    | succ n ih => simpa only [List.replicate_succ, rrRunOps, List.foldl_cons] using ih
  exact ⟨hq, hr, fun q k n => by rw [hqrep q k n], fun c k n => by rw [hrrep c k n]⟩

/-- C9: eviction is not uniform over the resident keys.  In the reachable
capacity-3 state holding keys 2, 4 and 5 (after the corrupted evictions of
keys 1 and 3), the candidate vector is [3, 2, 5]: whatever the random draw,
inserting key 6 never evicts the resident key 4 — its eviction probability
is 0, not 1/3.  (The draw enters only through its residue modulo the vector
length, so quantifying over every natural pick covers every possible draw.) -/
theorem c9_resident_key_never_evicted :
    (assocFind (rrRunSets 3 [(1, "a", 0), (2, "b", 0), (3, "c", 0), (4, "d", 0), (5, "e", 0)]
        : RRS Nat String).entry_map 4).isSome = true ∧
    (rrRunSets 3 [(1, "a", 0), (2, "b", 0), (3, "c", 0), (4, "d", 0), (5, "e", 0)]
        : RRS Nat String).keys.length = 3 ∧
    ∀ pick : Nat,
      (assocFind (rrSet (rrRunSets 3 [(1, "a", 0), (2, "b", 0), (3, "c", 0), (4, "d", 0), (5, "e", 0)]
          : RRS Nat String) 6 "f" pick).2.entry_map 4).isSome = true := by
  refine ⟨by decide, by decide, ?_⟩
  intro pick
  rw [rrSet_mod]
  rw [show (rrRunSets 3 [(1, "a", 0), (2, "b", 0), (3, "c", 0), (4, "d", 0), (5, "e", 0)]
      : RRS Nat String).keys.length = 3 from by decide]
  have h3 : pick % 3 = 0 ∨ pick % 3 = 1 ∨ pick % 3 = 2 := by omega
  rcases h3 with h | h | h <;> rw [h] <;> decide

/-- C10: the kind field has no influence: for every capacity and every
sequence of set and get calls, the FIFO-tagged and LIFO-tagged queues return
identical results on every call and reach states with identical entry maps,
key deques and capacities (only the never-consulted tag differs). -/
theorem c10_kind_has_no_influence (capacity : Nat) (ops : List (QOp K V)) :
    (queueRunTrace (queueNew capacity Kind.FIFO : QueueS K V) ops).1 =
      (queueRunTrace (queueNew capacity Kind.LIFO : QueueS K V) ops).1 ∧
    qcore (queueRunTrace (queueNew capacity Kind.FIFO : QueueS K V) ops).2 =
      qcore (queueRunTrace (queueNew capacity Kind.LIFO : QueueS K V) ops).2 :=
  queueRunTrace_core ops _ _ rfl
